import Mathlib

/-!
Verification of the candidate-selection and relevance-ranking pipeline of
`scripts/fetch_papers.py` (arxiv-daily-digest).

The Python source is shallowly embedded: pure functions become Lean
functions, the imperative loops become structural recursions carrying the
same state, machine-level effects (file system, network, wall clock) become
explicit parameters.  Persisted JSON files are modelled by a `FileState`
expressing the three situations the code distinguishes: the file is absent,
it is present but `json.load` raises (empty or invalid JSON), or it parses
to a JSON value.
-/

namespace ArxivDigest

/-! ## Text cleaning (`clean_text` in fetch_papers.py)

`clean_text` does `re.sub(r"\s+", " ", text)` followed by `.strip()`.
`\s` also matches some unicode whitespace in Python; here the six ASCII
whitespace characters are modelled, which is what feed text exercises. -/

def isSpace (c : Char) : Bool :=
  c = ' ' ∨ c = '\t' ∨ c = '\n' ∨ c = '\r' ∨ c = Char.ofNat 11 ∨ c = Char.ofNat 12

/-- `re.sub(r"\s+", " ", s)`: each maximal run of whitespace becomes one
space.  The boolean records whether the previous character was part of a
whitespace run still being replaced. -/
def collapseWS (prevSpace : Bool) : List Char → List Char
  | [] => []
  | c :: rest =>
    if isSpace c then
      if prevSpace then collapseWS true rest
      else ' ' :: collapseWS true rest
    else c :: collapseWS false rest

/-- Python `str.strip()`: drop leading and trailing whitespace. -/
def stripWS (l : List Char) : List Char :=
  ((l.dropWhile isSpace).reverse.dropWhile isSpace).reverse

def cleanTextS (s : String) : String :=
  String.mk (stripWS (collapseWS false s.data))

/-- `clean_text(text)`: `if not text: return ""` (covers the element text
being `None` or the empty string), else collapse whitespace and strip. -/
def clean_text (text : Option String) : String :=
  match text with
  | none => ""
  | some s => if s = "" then "" else cleanTextS s

/-! ## `extract_arxiv_id`

`re.search(r"(\d{4}\.\d{4,5})(v\d+)?$", url)`: the leftmost position whose
suffix-to-end matches four digits, a dot, four or five digits (greedy) and
an optional version tag; on a match, group 1 (the digits and dot), else
`url.split("/")[-1]`. -/

def verOk : List Char → Bool
  | [] => true
  | 'v' :: rest => rest ≠ [] ∧ rest.all Char.isDigit
  | _ => false

def matchIdAt (cs : List Char) : Option String :=
  let d4 := cs.take 4
  if d4.length = 4 ∧ d4.all Char.isDigit then
    match cs.drop 4 with
    | '.' :: rest =>
      let f5 := rest.take 5
      if f5.length = 5 ∧ f5.all Char.isDigit ∧ verOk (rest.drop 5) then
        some (String.mk (d4 ++ '.' :: f5))
      else
        let f4 := rest.take 4
        if f4.length = 4 ∧ f4.all Char.isDigit ∧ verOk (rest.drop 4) then
          some (String.mk (d4 ++ '.' :: f4))
        else none
    | _ => none
  else none

def searchId : List Char → Option String
  | [] => none
  | c :: rest =>
    match matchIdAt (c :: rest) with
    | some g => some g
    | none => searchId rest

def extract_arxiv_id (url : String) : String :=
  match searchId url.data with
  | some g => g
  | none => ((url.splitOn "/").getLastD "")

/-! ## JSON values and persisted files

`Json` is the result of a successful `json.load`; `FileState` is what the
loaders observe: a missing file, a present file on which `json.load`
raises (empty file or invalid JSON), or a parsed value. -/

inductive Json where
  | null
  | bool (b : Bool)
  | num (n : Int)
  | str (s : String)
  | arr (xs : List Json)
  | obj (kvs : List (String × Json))

inductive FileState where
  | missing
  | present (parsed : Option Json)

def quoteChar : Char := Char.ofNat 39

def quoteStr (s : String) : String :=
  String.mk (quoteChar :: s.data) ++ String.mk [quoteChar]

mutual

/-- Python `repr` of a parsed-JSON value (used by `str` on containers).
Escaping of quotes inside strings is not modelled (never exercised). -/
def pyRepr : Json → String
  | .null => "None"
  | .bool true => "True"
  | .bool false => "False"
  | .num n => toString n
  | .str s => quoteStr s
  | .arr xs => "[" ++ pyReprArr xs ++ "]"
  | .obj kvs => "\x7b" ++ pyReprObj kvs ++ "\x7d"

def pyReprArr : List Json → String
  | [] => ""
  | [x] => pyRepr x
  | x :: y :: rest => pyRepr x ++ ", " ++ pyReprArr (y :: rest)

def pyReprObj : List (String × Json) → String
  | [] => ""
  | [(k, v)] => quoteStr k ++ ": " ++ pyRepr v
  | (k, v) :: x :: rest => quoteStr k ++ ": " ++ pyRepr v ++ ", " ++ pyReprObj (x :: rest)

end

/-- Python `str` of a parsed-JSON value, as applied by `load_seen_ids`. -/
def pyStr : Json → String
  | .null => "None"
  | .bool true => "True"
  | .bool false => "False"
  | .num n => toString n
  | .str s => s
  | .arr xs => pyRepr (.arr xs)
  | .obj kvs => pyRepr (.obj kvs)

/-- Decimal value of a digit string, most significant first. -/
def digitsValAux (acc : Nat) : List Char → Nat
  | [] => acc
  | c :: rest => digitsValAux (acc * 10 + (c.toNat - 48)) rest

/-- Python `int(s)` on a string: strip whitespace, optional sign, decimal
digits (underscore grouping is not modelled). -/
def pyIntOfString (s : String) : Option Int :=
  match stripWS s.data with
  | [] => none
  | '+' :: rest =>
    if rest ≠ [] ∧ rest.all Char.isDigit then some (digitsValAux 0 rest) else none
  | '-' :: rest =>
    if rest ≠ [] ∧ rest.all Char.isDigit then some (-(digitsValAux 0 rest : Int)) else none
  | c :: rest =>
    if (c :: rest).all Char.isDigit then some (digitsValAux 0 (c :: rest)) else none

/-- Python `int(v)` on a parsed-JSON value: ints pass through, bools become
0/1, numeric strings parse, everything else raises (`none`). -/
def pyInt : Json → Option Int
  | .num n => some n
  | .bool b => some (if b then 1 else 0)
  | .str s => pyIntOfString s
  | _ => none

/-! ## Python dicts

A Python `dict[str, int]` is modelled as an association list in insertion
order with no duplicate keys; `dictInsert` is `d[k] = v` (update in place
if the key exists, else append) and `dictLookup` is key lookup. -/

def dictInsert (k : String) (v : Int) : List (String × Int) → List (String × Int)
  | [] => [(k, v)]
  | (k', v') :: rest => if k' = k then (k, v) :: rest else (k', v') :: dictInsert k v rest

def dictLookup : List (String × Int) → String → Option Int
  | [], _ => none
  | (k', v) :: rest, k => if k' = k then some v else dictLookup rest k

/-! ## Score Store (`load_scores` / `save_scores`) -/

/-- The dict comprehension `{str(k): int(v) for k, v in data.items()}`:
keys of a parsed JSON object are already strings, values go through
`int`; the first failing `int` raises out of the whole comprehension. -/
def convScores : List (String × Json) → List (String × Int) → Option (List (String × Int))
  | [], acc => some acc
  | (k, v) :: rest, acc =>
    match pyInt v with
    | none => none
    | some n => convScores rest (dictInsert k n acc)

/-- `load_scores()`: missing file yields `{}`; any exception while reading,
parsing or converting is caught and yields `{}`; a parsed non-dict value
falls through to the final `return {}`. -/
def load_scores (fs : FileState) : List (String × Int) :=
  match fs with
  | .missing => []
  | .present none => []
  | .present (some (.obj kvs)) =>
    match convScores kvs [] with
    | some d => d
    | none => []
  | .present (some _) => []

/-- `save_scores(scores)`: the JSON value `json.dump` writes. -/
def save_scores (scores : List (String × Int)) : Json :=
  .obj (scores.map (fun kv => (kv.1, .num kv.2)))

/-! ## Seen-Set Store (`load_seen_ids` / `save_seen_ids`) -/

/-- `load_seen_ids()`: missing file yields `set()`; exceptions are caught
and yield `set()`; a parsed list yields `set(str(x) for x in data)`; a
parsed non-list falls through to the final `return set()`. -/
def load_seen_ids (fs : FileState) : Finset String :=
  match fs with
  | .missing => ∅
  | .present none => ∅
  | .present (some (.arr xs)) => (xs.map pyStr).toFinset
  | .present (some _) => ∅

/-- `save_seen_ids(seen)`: the JSON value `json.dump(sorted(seen), ...)`
writes — the members of the set as a sorted JSON list of strings. -/
def save_seen_ids (seen : Finset String) : Json :=
  .arr ((seen.sort (· ≤ ·)).map .str)

/-! ## Dates

`filter_papers` parses `published` with `datetime.strptime(s, "%Y-%m-%d")`
and compares against `datetime.utcnow() - timedelta(days=30)`.  Instants
are modelled at day granularity (the time-of-day part of `utcnow` only
shifts the window boundary by less than a day). -/

structure PyDate where
  year : Int
  month : Int
  day : Int
deriving DecidableEq

/-- `datetime` comparison: lexicographic on (year, month, day). -/
def dateLt (a b : PyDate) : Bool :=
  decide (a.year < b.year ∨ (a.year = b.year ∧
    (a.month < b.month ∨ (a.month = b.month ∧ a.day < b.day))))

def isLeap (y : Int) : Bool :=
  y % 4 = 0 ∧ (y % 100 ≠ 0 ∨ y % 400 = 0)

def daysInMonth (y m : Int) : Int :=
  if m = 2 then (if isLeap y then 29 else 28)
  else if m = 4 ∨ m = 6 ∨ m = 9 ∨ m = 11 then 30
  else 31

/-- `s.split(sep)` on the character list (Python/`str.split` grouping:
`"a-b"` gives `["a","b"]`, `""` gives `[""]`, `"-"` gives `["",""]`). -/
def splitChar (sep : Char) : List Char → List (List Char)
  | [] => [[]]
  | c :: rest =>
    match splitChar sep rest with
    | [] => if c = sep then [[], []] else [[c]]
    | g :: gs => if c = sep then [] :: g :: gs else (c :: g) :: gs

/-- `datetime.strptime(s, "%Y-%m-%d")`: exactly three dash-separated
fields, a four-digit year, one-or-two-digit month and day, and a valid
calendar date (year at least 1, day within the month). -/
def parseDate (s : String) : Option PyDate :=
  match splitChar '-' s.data with
  | [ys, ms, ds] =>
    if ys.length = 4 ∧ ys.all Char.isDigit ∧
       1 ≤ ms.length ∧ ms.length ≤ 2 ∧ ms.all Char.isDigit ∧
       1 ≤ ds.length ∧ ds.length ≤ 2 ∧ ds.all Char.isDigit then
      let y := digitsValAux 0 ys
      let m := digitsValAux 0 ms
      let d := digitsValAux 0 ds
      if 1 ≤ y ∧ 1 ≤ m ∧ m ≤ 12 ∧ 1 ≤ d ∧ (d : Int) ≤ daysInMonth y m then
        some ⟨y, m, d⟩
      else none
    else none
  | _ => none

/-- Days since 1970-01-01 of a civil date (standard civil-calendar
conversion, floor divisions throughout). -/
def toRataDie (dt : PyDate) : Int :=
  let y := if dt.month ≤ 2 then dt.year - 1 else dt.year
  let era := Int.fdiv y 400
  let yoe := y - era * 400
  let mp := if dt.month > 2 then dt.month - 3 else dt.month + 9
  let doy := Int.fdiv (153 * mp + 2) 5 + dt.day - 1
  let doe := yoe * 365 + Int.fdiv yoe 4 - Int.fdiv yoe 100 + doy
  era * 146097 + doe - 719468

/-- Civil date from days since 1970-01-01 (inverse of `toRataDie`). -/
def fromRataDie (z0 : Int) : PyDate :=
  let z := z0 + 719468
  let era := Int.fdiv z 146097
  let doe := z - era * 146097
  let yoe := Int.fdiv (doe - Int.fdiv doe 1460 + Int.fdiv doe 36524 - Int.fdiv doe 146096) 365
  let y := yoe + era * 400
  let doy := doe - (365 * yoe + Int.fdiv yoe 4 - Int.fdiv yoe 100)
  let mp := Int.fdiv (5 * doy + 2) 153
  let d := doy - Int.fdiv (153 * mp + 2) 5 + 1
  let m := mp + (if mp < 10 then 3 else -9)
  ⟨y + (if m ≤ 2 then 1 else 0), m, d⟩

/-- `now - timedelta(days=n)`. -/
def dateSubDays (dt : PyDate) (n : Int) : PyDate :=
  fromRataDie (toRataDie dt - n)

/-! ## Paper records and the feed normalizer (`parse_arxiv_response`)

A paper dict: `id` is `Option String` because downstream code accesses it
with `paper.get("id")` (absent key behaves as `None`); all papers built by
`parse_arxiv_response` carry `some` id.  XML parsing itself (`ET.fromstring`)
is abstracted: the input is the list of `entry` elements, each presenting
the texts the code reads.  `XText.absent` means `entry.find(...)` returned
`None` (so `.text` raises `AttributeError`); `XText.textNone` means the
element exists but its `.text` is `None`. -/

structure Paper where
  id : Option String
  title : String
  abstract : String
  authors : List (Option String)
  published : String
  updated : String
  categories : List (Option String)
  pdf_url : String
  abs_url : String
  primary_category : Option String
deriving DecidableEq

inductive XText where
  | absent
  | textNone
  | text (s : String)
deriving DecidableEq

structure Entry where
  idText : XText
  titleText : XText
  summaryText : XText
  authorNames : List XText
  publishedText : XText
  updatedText : XText
  categoryTerms : List (Option String)
  primaryCategoryTerm : Option (Option String)
deriving DecidableEq

/-- Unhandled Python exceptions raised while building a paper dict. -/
inductive PyError where
  | attributeError
  | typeError
deriving DecidableEq

/-- `entry.find(x).text`: raises if the element is absent. -/
def xtext : XText → Except PyError (Option String)
  | .absent => .error .attributeError
  | .textNone => .ok none
  | .text s => .ok (some s)

/-- `extract_arxiv_id(entry.find("atom:id").text)`: `re.search` on `None`
raises `TypeError`. -/
def idValue (t : XText) : Except PyError String :=
  match t with
  | .absent => .error .attributeError
  | .textNone => .error .typeError
  | .text s => .ok (extract_arxiv_id s)

/-- `entry.find(x).text[:10]`: slicing `None` raises `TypeError`;
Python slices by code point. -/
def first10 (t : XText) : Except PyError String :=
  match t with
  | .absent => .error .attributeError
  | .textNone => .error .typeError
  | .text s => .ok (String.mk (s.data.take 10))

/-- `[a.find("atom:name").text for a in entry.findall("atom:author")]`. -/
def authorList : List XText → Except PyError (List (Option String))
  | [] => .ok []
  | t :: rest => do
    let n ← xtext t
    let ns ← authorList rest
    .ok (n :: ns)

/-- One iteration of the entry loop in `parse_arxiv_response`, building the
paper dict field by field in source order. -/
def parseEntry (e : Entry) : Except PyError Paper := do
  let pid ← idValue e.idText
  let title := clean_text (← xtext e.titleText)
  let abstract := clean_text (← xtext e.summaryText)
  let authors ← authorList e.authorNames
  let published ← first10 e.publishedText
  let updated ← first10 e.updatedText
  let categories := e.categoryTerms
  let pdf_url := "https://arxiv.org/pdf/" ++ pid ++ ".pdf"
  let abs_url := "https://arxiv.org/abs/" ++ pid
  let primary :=
    match e.primaryCategoryTerm with
    | some t => t
    | none =>
      match categories with
      | c :: _ => c
      | [] => some ""
  .ok ⟨some pid, title, abstract, authors, published, updated, categories, pdf_url, abs_url, primary⟩

/-- `parse_arxiv_response`: process the entries in order, appending each
paper; an exception in any entry aborts the whole parse (nothing catches
it). -/
def parse_arxiv_response : List Entry → Except PyError (List Paper)
  | [] => .ok []
  | e :: rest => do
    let p ← parseEntry e
    let ps ← parse_arxiv_response rest
    .ok (p :: ps)

/-! ## Recency filter (`filter_papers`)

`sorted(l, key=k, reverse=True)` and `l.sort(key=k, reverse=True)` are
stable sorts placing larger keys first; a stable sort for a total preorder
is unique, so they are modelled by insertion sort with the relation
"a may precede b iff key b ≤ key a". -/

def pySortDesc {β : Type} [LinearOrder β] (k : Paper → β) (l : List Paper) : List Paper :=
  List.insertionSort (fun a b => k b ≤ k a) l

/-- The body of the loop in `filter_papers`: keep a paper iff its
`published` field parses and is not before `now - 30 days`.  (There is no
upper bound: nothing compares the date against `now` itself.) -/
def recent (now : PyDate) (p : Paper) : Bool :=
  match parseDate p.published with
  | none => false
  | some d => ¬ dateLt d (dateSubDays now 30)

/-- `filter_papers(papers, config)`: keep the recent papers, then
`filtered.sort(key=lambda x: x.get("published", ""), reverse=True)`.
Python compares strings by code point; the key is taken as the character
list with its lexicographic order, which is that comparison. -/
def filter_papers (papers : List Paper) (now : PyDate) : List Paper :=
  pySortDesc (fun p => p.published.data) (papers.filter (recent now))

/-! ## Scoring loop and ranking (`main`) -/

/-- The DeepSeek scoring loop in `main`: for each paper in order, skip it
if its id is falsy or already in the scores dict, otherwise call the rater
(`score_with_deepseek`, abstracted as an oracle since it performs network
I/O; it returns a clamped score or `None` on failure) and record a
returned score.  Also returns the ids the rater was invoked on. -/
def scoreLoop (rater : Paper → Option Int) (papers : List Paper)
    (scores : List (String × Int)) : List (String × Int) × List String :=
  match papers with
  | [] => (scores, [])
  | p :: rest =>
    match p.id with
    | none => scoreLoop rater rest scores
    | some pid =>
      if pid = "" then scoreLoop rater rest scores
      else if (dictLookup scores pid).isSome then scoreLoop rater rest scores
      else
        match rater p with
        | some s =>
          let r := scoreLoop rater rest (dictInsert pid s scores)
          (r.1, pid :: r.2)
        | none =>
          let r := scoreLoop rater rest scores
          (r.1, pid :: r.2)

/-- `paper_score` in `main`: the cached score if the id is present, else 0.
(Python wraps the int in `float`; exact for the magnitudes involved.) -/
def paper_score (scores : List (String × Int)) (p : Paper) : Int :=
  match p.id with
  | none => 0
  | some pid =>
    match dictLookup scores pid with
    | some v => v
    | none => 0

/-! ## Unseen selector (`select_unseen`) -/

/-- The loop of `select_unseen`, carrying the accumulated `selected` list
and `new_seen` set.  `if not pid: continue` skips a missing or empty id;
`if pid in seen: continue` checks only the set loaded at start — `seen` is
never updated during the walk; after appending, `len(selected) >= limit`
breaks. -/
def selectGo (seen : Finset String) (limit : Nat) :
    List Paper → List Paper → Finset String → List Paper × Finset String
  | [], selected, newSeen => (selected, newSeen)
  | p :: rest, selected, newSeen =>
    match p.id with
    | none => selectGo seen limit rest selected newSeen
    | some pid =>
      if pid = "" then selectGo seen limit rest selected newSeen
      else if pid ∈ seen then selectGo seen limit rest selected newSeen
      else
        let selected' := selected ++ [p]
        let newSeen' := insert pid newSeen
        if limit ≤ selected'.length then (selected', newSeen')
        else selectGo seen limit rest selected' newSeen'

/-- `select_unseen(papers, seen, limit)`. -/
def select_unseen (papers : List Paper) (seen : Finset String) (limit : Nat) :
    List Paper × Finset String :=
  selectGo seen limit papers [] ∅

/-- A paper the selector will take when reached before the limit: truthy
id not in the seen set. -/
def eligible (seen : Finset String) (p : Paper) : Bool :=
  match p.id with
  | none => false
  | some pid => pid ≠ "" ∧ pid ∉ seen

/-! ## One pipeline invocation (`main`)

`main`'s effects are made explicit: the raw fetched batch, the wall-clock
date, the two loaded stores and the configured limit are inputs; the
committed stores and the selected papers are outputs.  `client` is `none`
when `DEEPSEEK_API_KEY` is unset (`create_ds_client` returns `None` and
the scoring loop is skipped).  `save_scores` runs only when `new_scores`
is positive and `save_seen_ids` only when `new_seen` is nonempty, but in
both skipped cases the store content is unchanged, so the committed state
is as below. -/

structure RunResult where
  scores : List (String × Int)
  selected : List Paper
  seen : Finset String
deriving DecidableEq

def main_run (client : Option (Paper → Option Int)) (now : PyDate)
    (raw : List Paper) (scores0 : List (String × Int)) (seen : Finset String)
    (limit : Nat) : RunResult :=
  let base := filter_papers raw now
  let scores :=
    match client with
    | none => scores0
    | some rater => (scoreLoop rater base scores0).1
  let ranked := pySortDesc (paper_score scores) base
  let sel := select_unseen ranked seen limit
  ⟨scores, sel.1, seen ∪ sel.2⟩

/-! ## Concrete fixture papers used by witnesses and counterexamples -/

def pA : Paper := ⟨some "a", "", "", [], "2026-01-20", "", [], "", "", none⟩

def pA2 : Paper := ⟨some "a", "t2", "", [], "2026-01-20", "", [], "", "", none⟩

def pB : Paper := ⟨some "b", "", "", [], "2026-01-19", "", [], "", "", none⟩

def pB20 : Paper := ⟨some "b", "", "", [], "2026-01-20", "", [], "", "", none⟩

def pNoId : Paper := ⟨none, "", "", [], "2026-01-20", "", [], "", "", none⟩

def pFuture : Paper := ⟨some "f", "", "", [], "9999-12-31", "", [], "", "", none⟩

/-- A whitespace-normalized string, as `clean_text` produces: every
whitespace character is a plain space, no two adjacent whitespace
characters, and no leading or trailing whitespace. -/
def isCleaned (s : String) : Prop :=
  (∀ c ∈ s.data, isSpace c = true → c = ' ') ∧
  s.data.Chain' (fun a b => ¬(isSpace a = true ∧ isSpace b = true)) ∧
  (∀ c, s.data.head? = some c → isSpace c = false) ∧
  (∀ c, s.data.getLast? = some c → isSpace c = false)

/-- A well-formed feed entry whose title text is whitespace only. -/
def eWs : Entry :=
  ⟨.text "2401.12345", .text "   ", .text "ab", [],
   .text "2026-01-15", .text "2026-01-15", [], none⟩

/-- A feed entry lacking its title element. -/
def eAbsent : Entry :=
  ⟨.text "2401.12345", .absent, .text "ab", [],
   .text "2026-01-15", .text "2026-01-15", [], none⟩

/-- The paper `parse_arxiv_response` builds from `eWs`: its title is
empty. -/
def pWs : Paper :=
  ⟨some "2401.12345", "", "ab", [], "2026-01-15", "2026-01-15", [],
   "https://arxiv.org/pdf/2401.12345.pdf", "https://arxiv.org/abs/2401.12345", some ""⟩

/-- The combined order a stable descending sort by key `k` establishes over
an input already pairwise related by `R`: strictly larger keys first, equal
keys in input order. -/
def rankRel {β : Type} [LinearOrder β] (k : Paper → β) (R : Paper → Paper → Prop)
    (a b : Paper) : Prop :=
  k b < k a ∨ (k a = k b ∧ R a b)

/-! # Theorems -/

/-! ## Dictionary lemmas -/

theorem dictLookup_insert_self (k : String) (v : Int) (d : List (String × Int)) :
    dictLookup (dictInsert k v d) k = some v := by
  induction d with
  | nil => simp [dictInsert, dictLookup]
  | cons kv rest ih =>
    obtain ⟨k', v'⟩ := kv
    by_cases h : k' = k <;> simp [dictInsert, dictLookup, h, ih]

theorem dictLookup_insert_ne (k k' : String) (v : Int) (d : List (String × Int))
    (h : k' ≠ k) : dictLookup (dictInsert k v d) k' = dictLookup d k' := by
  induction d with
  | nil => simp [dictInsert, dictLookup, Ne.symm h]
  | cons kv rest ih =>
    obtain ⟨k₀, v₀⟩ := kv
    by_cases h0 : k₀ = k
    · subst h0
      simp [dictInsert, dictLookup, Ne.symm h]
    · simp [dictInsert, dictLookup, h0, ih]

theorem dictLookup_insert_of_some (k k' : String) (v w : Int) (d : List (String × Int))
    (h : dictLookup d k' = some w) : dictLookup (dictInsert k v d) k' = some (if k' = k then v else w) := by
  by_cases hk : k' = k
  · subst hk; simp [dictLookup_insert_self]
  · simp [hk, dictLookup_insert_ne k k' v d hk, h]

/-! ## Scoring-loop lemmas -/

/-- A score present before the loop is present, unchanged, after it. -/
theorem scoreLoop_preserves (rater : Paper → Option Int) (papers : List Paper) :
    ∀ scores k v, dictLookup scores k = some v →
      dictLookup (scoreLoop rater papers scores).1 k = some v := by
  induction papers with
  | nil => intro scores k v h; simpa [scoreLoop] using h
  | cons p rest ih =>
    intro scores k v h
    match hid : p.id with
    | none => simpa [scoreLoop, hid] using ih scores k v h
    | some pid =>
      by_cases hemp : pid = ""
      · simpa [scoreLoop, hid, hemp] using ih scores k v h
      · by_cases hmem : (dictLookup scores pid).isSome
        · simpa [scoreLoop, hid, hemp, hmem] using ih scores k v h
        · match hr : rater p with
          | some s =>
            have hne : k ≠ pid := by
              intro hk; subst hk; simp [h] at hmem
            have h' : dictLookup (dictInsert pid s scores) k = some v := by
              rw [dictLookup_insert_ne pid k s scores hne]; exact h
            simpa [scoreLoop, hid, hemp, hmem, hr] using ih (dictInsert pid s scores) k v h'
          | none =>
            simpa [scoreLoop, hid, hemp, hmem, hr] using ih scores k v h

/-- Every id on which the loop invoked the rater was absent from the score
store when the loop started. -/
theorem scoreLoop_called_absent (rater : Paper → Option Int) (papers : List Paper) :
    ∀ scores, ∀ pid ∈ (scoreLoop rater papers scores).2,
      dictLookup scores pid = none := by
  induction papers with
  | nil => intro scores pid h; simp [scoreLoop] at h
  | cons p rest ih =>
    intro scores pid h
    match hid : p.id with
    | none => exact ih scores pid (by simpa [scoreLoop, hid] using h)
    | some pid' =>
      by_cases hemp : pid' = ""
      · exact ih scores pid (by simpa [scoreLoop, hid, hemp] using h)
      · by_cases hmem : (dictLookup scores pid').isSome
        · exact ih scores pid (by simpa [scoreLoop, hid, hemp, hmem] using h)
        · match hr : rater p with
          | some s =>
            simp only [scoreLoop, hid, hemp, hmem, hr] at h
            simp only [if_neg hemp, Bool.false_eq_true, if_false] at h
            rcases List.mem_cons.mp h with h1 | h1
            · subst h1
              simpa using hmem
            · have h2 := ih (dictInsert pid' s scores) pid h1
              by_cases hpp : pid = pid'
              · subst hpp; simpa using hmem
              · rwa [dictLookup_insert_ne pid' pid s scores hpp] at h2
          | none =>
            simp only [scoreLoop, hid, hemp, hmem, hr] at h
            simp only [if_neg hemp, Bool.false_eq_true, if_false] at h
            rcases List.mem_cons.mp h with h1 | h1
            · subst h1; simpa using hmem
            · exact ih scores pid h1

/-- C2: identities already in the Score Store at the start of a run keep
their score: the scoring loop only invokes the rater for identities not in
the store, and the resulting mapping (the one `save_scores` commits)
agrees with the initial one on every previously-present key. -/
theorem c2_score_immutability (rater : Paper → Option Int) (papers : List Paper)
    (scores : List (String × Int)) (k : String) (v : Int)
    (h : dictLookup scores k = some v) :
    dictLookup (scoreLoop rater papers scores).1 k = some v ∧
    ∀ pid ∈ (scoreLoop rater papers scores).2, dictLookup scores pid = none :=
  ⟨scoreLoop_preserves rater papers scores k v h,
   scoreLoop_called_absent rater papers scores⟩

/-- C2 witness: a concrete run: id "a" is cached with score 5; papers "a"
and "b" arrive; a rater returning 7 is consulted only for "b", and "a"
keeps score 5. -/
theorem c2_score_immutability_witness :
    dictLookup (scoreLoop (fun _ => some 7)
        [⟨some "a", "", "", [], "", "", [], "", "", none⟩,
         ⟨some "b", "", "", [], "", "", [], "", "", none⟩] [("a", 5)]).1 "a" = some 5 ∧
    ∀ pid ∈ (scoreLoop (fun _ => some 7)
        [⟨some "a", "", "", [], "", "", [], "", "", none⟩,
         ⟨some "b", "", "", [], "", "", [], "", "", none⟩] [("a", 5)]).2,
      dictLookup [("a", 5)] pid = none :=
  c2_score_immutability (fun _ => some 7)
    [⟨some "a", "", "", [], "", "", [], "", "", none⟩,
     ⟨some "b", "", "", [], "", "", [], "", "", none⟩] [("a", 5)] "a" 5 (by rfl)

/-! ## C1: loading corrupt stores -/

/-- C1 counterexample: a present-but-unparsable store file (one on which
`json.load` raises — for instance an empty or truncated file) does NOT
fail the run: both loaders silently return the same empty state they
return for a missing file, because the `except Exception` handlers swallow
the error. -/
theorem c1_counterexample :
    load_scores (.present none) = [] ∧
    load_seen_ids (.present none) = ∅ ∧
    load_scores (.present none) = load_scores .missing ∧
    load_seen_ids (.present none) = load_seen_ids .missing :=
  ⟨rfl, rfl, rfl, rfl⟩

/-- C1 amended: loading a missing or empty store yields the empty mapping
(empty set), and loading a present-but-unparsable store — or one that
parses to an unexpected shape, or whose score values fail integer
conversion —
ALSO yields the empty mapping: corruption is silently treated as no data;
there is no `CorruptStore` failure path. -/
theorem c1_amended :
    load_scores .missing = [] ∧ load_seen_ids .missing = ∅ ∧
    load_scores (.present none) = [] ∧ load_seen_ids (.present none) = ∅ ∧
    (∀ xs, load_scores (.present (some (.arr xs))) = []) ∧
    (∀ kvs, load_seen_ids (.present (some (.obj kvs))) = ∅) ∧
    (∀ k kvs, load_scores (.present (some (.obj ((k, Json.null) :: kvs)))) = []) :=
  ⟨rfl, rfl, rfl, rfl, fun _ => rfl, fun _ => rfl,
   fun k kvs => by simp [load_scores, convScores, pyInt]⟩

/-! ## C10: seen-set round trip -/

/-- C10: persisting the seen-set and loading it back is the identity:
`save_seen_ids` writes the identities as a sorted duplicate-free JSON list
of strings and `load_seen_ids` rebuilds exactly that set. -/
theorem c10_seen_roundtrip (s : Finset String) :
    load_seen_ids (.present (some (save_seen_ids s))) = s := by
  simp only [save_seen_ids, load_seen_ids, List.map_map]
  have h : pyStr ∘ Json.str = id := funext fun x => rfl
  rw [h, List.map_id]
  exact Finset.sort_toFinset _ s

/-! ## Selector lemmas -/

/-- Removing a paper the walk skips (falsy id, or id in the seen set)
changes nothing: the loop body for it is a `continue`. -/
theorem selectGo_skip (seen : Finset String) (limit : Nat) (p : Paper) (l₂ : List Paper)
    (hp : eligible seen p = false) :
    ∀ l₁ sel ns, selectGo seen limit (l₁ ++ p :: l₂) sel ns = selectGo seen limit (l₁ ++ l₂) sel ns := by
  intro l₁
  induction l₁ with
  | nil =>
    intro sel ns
    match hid : p.id with
    | none => simp [selectGo, hid]
    | some pid =>
      by_cases hemp : pid = ""
      · simp [selectGo, hid, hemp]
      · have hmem : pid ∈ seen := by
          by_contra hs
          simp [eligible, hid, hemp, hs] at hp
        simp [selectGo, hid, hemp, hmem]
  | cons q l ih =>
    intro sel ns
    match hq : q.id with
    | none => simpa [selectGo, hq] using ih sel ns
    | some qid =>
      by_cases hemp : qid = ""
      · simpa [selectGo, hq, hemp] using ih sel ns
      · by_cases hmem : qid ∈ seen
        · simpa [selectGo, hq, hemp, hmem] using ih sel ns
        · by_cases hbrk : limit ≤ sel.length + 1
          · simp [selectGo, hq, hemp, hmem, hbrk]
          · simpa [selectGo, hq, hemp, hmem, hbrk] using ih (sel ++ [q]) (insert qid ns)

/-- Every paper the walk appends is eligible: its id is truthy and not in
the seen set. -/
theorem selectGo_sel_eligible (seen : Finset String) (limit : Nat) :
    ∀ papers sel ns, (∀ q ∈ sel, eligible seen q = true) →
      ∀ q ∈ (selectGo seen limit papers sel ns).1, eligible seen q = true := by
  intro papers
  induction papers with
  | nil => intro sel ns hsel q hq; exact hsel q (by simpa [selectGo] using hq)
  | cons p rest ih =>
    intro sel ns hsel q hq
    match hid : p.id with
    | none => exact ih sel ns hsel q (by simpa [selectGo, hid] using hq)
    | some pid =>
      by_cases hemp : pid = ""
      · exact ih sel ns hsel q (by simpa [selectGo, hid, hemp] using hq)
      · by_cases hmem : pid ∈ seen
        · exact ih sel ns hsel q (by simpa [selectGo, hid, hemp, hmem] using hq)
        · have hsel' : ∀ r ∈ sel ++ [p], eligible seen r = true := by
            intro r hr
            rcases List.mem_append.mp hr with h1 | h1
            · exact hsel r h1
            · rcases List.mem_singleton.mp h1 with rfl
              simp [eligible, hid, hemp, hmem]
          by_cases hbrk : limit ≤ sel.length + 1
          · refine hsel' q ?_
            simpa [selectGo, hid, hemp, hmem, hbrk] using hq
          · exact ih (sel ++ [p]) (insert pid ns) hsel' q
              (by simpa [selectGo, hid, hemp, hmem, hbrk] using hq)

/-- Every id the walk records in `new_seen` is nonempty. -/
theorem selectGo_ns_nonempty (seen : Finset String) (limit : Nat) :
    ∀ papers sel ns, (∀ a ∈ ns, a ≠ "") →
      ∀ a ∈ (selectGo seen limit papers sel ns).2, a ≠ "" := by
  intro papers
  induction papers with
  | nil => intro sel ns hns a ha; exact hns a (by simpa [selectGo] using ha)
  | cons p rest ih =>
    intro sel ns hns a ha
    match hid : p.id with
    | none => exact ih sel ns hns a (by simpa [selectGo, hid] using ha)
    | some pid =>
      by_cases hemp : pid = ""
      · exact ih sel ns hns a (by simpa [selectGo, hid, hemp] using ha)
      · by_cases hmem : pid ∈ seen
        · exact ih sel ns hns a (by simpa [selectGo, hid, hemp, hmem] using ha)
        · have hns' : ∀ b ∈ insert pid ns, b ≠ "" := by
            intro b hb
            rcases Finset.mem_insert.mp hb with rfl | hb'
            · exact hemp
            · exact hns b hb'
          by_cases hbrk : limit ≤ sel.length + 1
          · simp only [selectGo, hid, hemp, hmem, hbrk] at ha
            simp only [decide_not, ite_true, ite_false] at ha
            refine hns' a ?_
            simp_all
          · exact ih (sel ++ [p]) (insert pid ns) hns' a
              (by simpa [selectGo, hid, hemp, hmem, hbrk] using ha)

/-- The accumulated `new_seen` set only grows along the walk. -/
theorem selectGo_ns_subset (seen : Finset String) (limit : Nat) :
    ∀ papers sel ns, ns ⊆ (selectGo seen limit papers sel ns).2 := by
  intro papers
  induction papers with
  | nil => intro sel ns; simp [selectGo]
  | cons p rest ih =>
    intro sel ns
    match hid : p.id with
    | none => simpa [selectGo, hid] using ih sel ns
    | some pid =>
      by_cases hemp : pid = ""
      · simpa [selectGo, hid, hemp] using ih sel ns
      · by_cases hmem : pid ∈ seen
        · simpa [selectGo, hid, hemp, hmem] using ih sel ns
        · by_cases hbrk : limit ≤ sel.length + 1
          · simp only [selectGo, hid, hemp, hmem, hbrk]
            intro a ha
            simp_all [Finset.mem_insert]
          · have h2 := ih (sel ++ [p]) (insert pid ns)
            have h1 : ns ⊆ insert pid ns := Finset.subset_insert pid ns
            have := h1.trans h2
            simpa [selectGo, hid, hemp, hmem, hbrk] using this

/-- Once fewer than `limit` papers are selected, the walk never returns
more than `limit`. -/
theorem selectGo_length_le (seen : Finset String) (limit : Nat) :
    ∀ papers sel ns, sel.length < limit →
      (selectGo seen limit papers sel ns).1.length ≤ limit := by
  intro papers
  induction papers with
  | nil => intro sel ns h; simpa [selectGo] using Nat.le_of_lt h
  | cons p rest ih =>
    intro sel ns h
    match hid : p.id with
    | none => simpa [selectGo, hid] using ih sel ns h
    | some pid =>
      by_cases hemp : pid = ""
      · simpa [selectGo, hid, hemp] using ih sel ns h
      · by_cases hmem : pid ∈ seen
        · simpa [selectGo, hid, hemp, hmem] using ih sel ns h
        · by_cases hbrk : limit ≤ sel.length + 1
          · simp [selectGo, hid, hemp, hmem, hbrk]
            omega
          · have h' : (sel ++ [p]).length < limit := by
              simp only [List.length_append, List.length_singleton]
              omega
            simpa [selectGo, hid, hemp, hmem, hbrk] using ih (sel ++ [p]) (insert pid ns) h'

/-- If the walk returned fewer papers than the limit, it never broke: it
selected exactly the eligible papers, in order, and recorded each of their
ids. -/
theorem selectGo_no_break (seen : Finset String) (limit : Nat) :
    ∀ papers sel ns, (selectGo seen limit papers sel ns).1.length < limit →
      (selectGo seen limit papers sel ns).1 = sel ++ papers.filter (eligible seen) ∧
      ∀ p ∈ papers, ∀ pid, p.id = some pid → eligible seen p = true →
        pid ∈ (selectGo seen limit papers sel ns).2 := by
  intro papers
  induction papers with
  | nil =>
    intro sel ns _
    refine ⟨by simp [selectGo], ?_⟩
    intro p hp
    simp at hp
  | cons p rest ih =>
    intro sel ns h
    match hid : p.id with
    | none =>
      have h0 : eligible seen p = false := by simp [eligible, hid]
      obtain ⟨h1, h2⟩ := ih sel ns (by simpa [selectGo, hid] using h)
      refine ⟨by simpa [selectGo, hid, h0] using h1, ?_⟩
      intro q hq qid hqid helig
      rcases List.mem_cons.mp hq with rfl | hq'
      · rw [hqid] at hid; cases hid
      · simpa [selectGo, hid] using h2 q hq' qid hqid helig
    | some pid =>
      by_cases hemp : pid = ""
      · have h0 : eligible seen p = false := by simp [eligible, hid, hemp]
        obtain ⟨h1, h2⟩ := ih sel ns (by simpa [selectGo, hid, hemp] using h)
        refine ⟨by simpa [selectGo, hid, hemp, h0] using h1, ?_⟩
        intro q hq qid hqid helig
        rcases List.mem_cons.mp hq with rfl | hq'
        · rw [hqid] at hid
          cases hid
          simp [eligible, hqid, hemp] at helig
        · simpa [selectGo, hid, hemp] using h2 q hq' qid hqid helig
      · by_cases hmem : pid ∈ seen
        · have h0 : eligible seen p = false := by simp [eligible, hid, hemp, hmem]
          obtain ⟨h1, h2⟩ := ih sel ns (by simpa [selectGo, hid, hemp, hmem] using h)
          refine ⟨by simpa [selectGo, hid, hemp, hmem, h0] using h1, ?_⟩
          intro q hq qid hqid helig
          rcases List.mem_cons.mp hq with rfl | hq'
          · rw [hqid] at hid
            cases hid
            simp [eligible, hqid, hemp, hmem] at helig
          · simpa [selectGo, hid, hemp, hmem] using h2 q hq' qid hqid helig
        · have h0 : eligible seen p = true := by simp [eligible, hid, hemp, hmem]
          by_cases hbrk : limit ≤ sel.length + 1
          · exfalso
            have : (selectGo seen limit (p :: rest) sel ns).1.length = sel.length + 1 := by
              simp [selectGo, hid, hemp, hmem, hbrk]
            omega
          · obtain ⟨h1, h2⟩ := ih (sel ++ [p]) (insert pid ns)
              (by simpa [selectGo, hid, hemp, hmem, hbrk] using h)
            constructor
            · have : (selectGo seen limit (p :: rest) sel ns).1 =
                  (selectGo seen limit rest (sel ++ [p]) (insert pid ns)).1 := by
                simp [selectGo, hid, hemp, hmem, hbrk]
              rw [this, h1]
              simp [h0]
            · intro q hq qid hqid helig
              have hrec : (selectGo seen limit (p :: rest) sel ns).2 =
                  (selectGo seen limit rest (sel ++ [p]) (insert pid ns)).2 := by
                simp [selectGo, hid, hemp, hmem, hbrk]
              have hmemins : pid ∈ (selectGo seen limit rest (sel ++ [p]) (insert pid ns)).2 :=
                selectGo_ns_subset seen limit rest (sel ++ [p]) (insert pid ns)
                  (Finset.mem_insert_self pid ns)
              rcases List.mem_cons.mp hq with heq | hq'
              · have hpq : pid = qid := by
                  rw [heq] at hqid
                  rw [hid] at hqid
                  exact Option.some_inj.mp hqid
                rw [hrec]
                exact hpq ▸ hmemins
              · rw [hrec]
                exact h2 q hq' qid hqid helig

/-- If every truthy id in the list is already seen, the walk selects
nothing and records nothing. -/
theorem selectGo_all_seen (seen' : Finset String) (limit : Nat) :
    ∀ papers sel ns, (∀ p ∈ papers, ∀ pid, p.id = some pid → pid ≠ "" → pid ∈ seen') →
      selectGo seen' limit papers sel ns = (sel, ns) := by
  intro papers
  induction papers with
  | nil => intro sel ns _; simp [selectGo]
  | cons p rest ih =>
    intro sel ns h
    have hrest : ∀ q ∈ rest, ∀ pid, q.id = some pid → pid ≠ "" → pid ∈ seen' :=
      fun q hq => h q (List.mem_cons_of_mem p hq)
    match hid : p.id with
    | none => simpa [selectGo, hid] using ih sel ns hrest
    | some pid =>
      by_cases hemp : pid = ""
      · simpa [selectGo, hid, hemp] using ih sel ns hrest
      · have hmem : pid ∈ seen' := h p (List.mem_cons_self p rest) pid hid hemp
        simpa [selectGo, hid, hemp, hmem] using ih sel ns hrest

/-! ## C8: selection bound -/

/-- C8: for a positive limit `K`, the selector returns at most `K` papers;
when it returns fewer than `K`, the walk never hit the limit, so the
returned papers are exactly the eligible unseen candidates of the
sequence — in particular fewer than `K` such candidates exist.  (The
function is total: exhausting the sequence is an ordinary return, not an
error.) -/
theorem c8_selection_bound (papers : List Paper) (seen : Finset String) (limit : Nat)
    (h : 1 ≤ limit) :
    (select_unseen papers seen limit).1.length ≤ limit ∧
    ((select_unseen papers seen limit).1.length < limit →
      (select_unseen papers seen limit).1 = papers.filter (eligible seen) ∧
      (papers.filter (eligible seen)).length < limit) := by
  constructor
  · exact selectGo_length_le seen limit papers [] ∅ (by simpa using h)
  · intro hlt
    obtain ⟨h1, _⟩ := selectGo_no_break seen limit papers [] ∅ hlt
    have h2 : (select_unseen papers seen limit).1 = papers.filter (eligible seen) := by
      simpa [select_unseen] using h1
    refine ⟨h2, ?_⟩
    rw [← h2]
    exact hlt

/-- C8 witness: limit 1 on a two-candidate batch selects exactly one. -/
theorem c8_selection_bound_witness :
    (select_unseen [pA, pB] ∅ 1).1.length ≤ 1 ∧
    ((select_unseen [pA, pB] ∅ 1).1.length < 1 →
      (select_unseen [pA, pB] ∅ 1).1 = [pA, pB].filter (eligible ∅) ∧
      ([pA, pB].filter (eligible ∅)).length < 1) :=
  c8_selection_bound [pA, pB] ∅ 1 (by decide)

/-! ## C9: candidates with falsy ids -/

/-- C9: a candidate whose id is missing or empty is transparent to the
selector: deleting it from the sequence changes nothing, every selected
paper has a truthy unseen id (so such a candidate is never selected and
never counts toward the limit), and the empty string never enters the
new-seen delta. -/
theorem c9_falsy_id_skipped (l₁ l₂ : List Paper) (p : Paper) (seen : Finset String)
    (limit : Nat) (h : p.id = none ∨ p.id = some "") :
    select_unseen (l₁ ++ p :: l₂) seen limit = select_unseen (l₁ ++ l₂) seen limit ∧
    (∀ q ∈ (select_unseen (l₁ ++ p :: l₂) seen limit).1, eligible seen q = true) ∧
    p ∉ (select_unseen (l₁ ++ p :: l₂) seen limit).1 ∧
    "" ∉ (select_unseen (l₁ ++ p :: l₂) seen limit).2 := by
  have hp : eligible seen p = false := by
    rcases h with h | h <;> simp [eligible, h]
  have hskip := selectGo_skip seen limit p l₂ hp l₁ [] ∅
  have hsel : ∀ q ∈ (select_unseen (l₁ ++ p :: l₂) seen limit).1, eligible seen q = true :=
    selectGo_sel_eligible seen limit (l₁ ++ p :: l₂) [] ∅ (by simp)
  refine ⟨by simpa [select_unseen] using hskip, hsel, ?_, ?_⟩
  · intro hmem
    have := hsel p hmem
    rw [hp] at this
    cases this
  · intro hmem
    have := selectGo_ns_nonempty seen limit (l₁ ++ p :: l₂) [] ∅ (by simp) "" hmem
    exact this rfl

/-- C9 witness: a paper with no id between two normal candidates. -/
theorem c9_falsy_id_skipped_witness :
    select_unseen ([pA] ++ pNoId :: [pB]) ∅ 5 = select_unseen ([pA] ++ [pB]) ∅ 5 ∧
    (∀ q ∈ (select_unseen ([pA] ++ pNoId :: [pB]) ∅ 5).1, eligible ∅ q = true) ∧
    pNoId ∉ (select_unseen ([pA] ++ pNoId :: [pB]) ∅ 5).1 ∧
    "" ∉ (select_unseen ([pA] ++ pNoId :: [pB]) ∅ 5).2 :=
  c9_falsy_id_skipped [pA] [pB] pNoId ∅ 5 (Or.inl rfl)

/-! ## C4: duplicate identities within one batch -/

/-- C4 counterexample: the walk does NOT remember identities it already
chose: `seen` is never updated during the walk and `new_seen` is never
consulted, so a batch containing two distinct records with the same
identity "a" yields a selection containing both. -/
theorem c4_counterexample :
    (select_unseen [pA, pA2] ∅ 5).1 = [pA, pA2] ∧
    pA.id = some "a" ∧ pA2.id = some "a" ∧ pA ≠ pA2 := by
  refine ⟨by decide, rfl, rfl, by decide⟩

/-- C4 amended: the selector skips a candidate whose identity is in the
Seen-Set (removing such a candidate changes nothing); but a candidate
whose identity was already chosen earlier in the same walk is NOT
skipped — duplicate identities in one batch are each selected, and only
the new-seen delta (a set) deduplicates them. -/
theorem c4_amended (l₁ l₂ : List Paper) (p : Paper) (pid : String) (seen : Finset String)
    (limit : Nat) (h1 : p.id = some pid) (h2 : pid ∈ seen) :
    select_unseen (l₁ ++ p :: l₂) seen limit = select_unseen (l₁ ++ l₂) seen limit := by
  have hp : eligible seen p = false := by simp [eligible, h1, h2]
  simpa [select_unseen] using selectGo_skip seen limit p l₂ hp l₁ [] ∅

/-- C4 amended witness: a candidate with already-seen id "a" is skipped. -/
theorem c4_amended_witness :
    select_unseen ([pB] ++ pA :: []) {"a"} 3 = select_unseen ([pB] ++ []) {"a"} 3 :=
  c4_amended [pB] [] pA "a" {"a"} 3 rfl (by decide)

/-! ## Second-run lemmas (scoring fixpoint, selection idempotence) -/

theorem scoreLoop_preserves_isSome (rater : Paper → Option Int) (papers : List Paper)
    (scores : List (String × Int)) (k : String) (h : (dictLookup scores k).isSome) :
    (dictLookup (scoreLoop rater papers scores).1 k).isSome := by
  rw [Option.isSome_iff_exists] at h
  obtain ⟨v, hv⟩ := h
  rw [Option.isSome_iff_exists]
  exact ⟨v, scoreLoop_preserves rater papers scores k v hv⟩

/-- After the loop, every paper whose id is truthy and whose rating call
would succeed has a cached score. -/
theorem scoreLoop_progress (rater : Paper → Option Int) (papers : List Paper) :
    ∀ scores, ∀ p ∈ papers, ∀ pid, p.id = some pid → pid ≠ "" → (rater p).isSome →
      (dictLookup (scoreLoop rater papers scores).1 pid).isSome := by
  induction papers with
  | nil => intro scores p hp; simp at hp
  | cons q rest ih =>
    intro scores p hp pid hpid hemp hr
    rcases List.mem_cons.mp hp with heq | hp'
    · subst heq
      rw [scoreLoop, hpid]
      simp only [if_neg hemp]
      by_cases hmem : (dictLookup scores pid).isSome
      · simp only [hmem, ite_true]
        exact scoreLoop_preserves_isSome rater rest scores pid hmem
      · simp only [hmem, Bool.false_eq_true, if_false]
        rw [Option.isSome_iff_exists] at hr
        obtain ⟨s, hs⟩ := hr
        rw [hs]
        exact scoreLoop_preserves_isSome rater rest (dictInsert pid s scores) pid
          (by rw [dictLookup_insert_self]; rfl)
    · match hqid : q.id with
      | none => simpa [scoreLoop, hqid] using ih scores p hp' pid hpid hemp hr
      | some qid =>
        by_cases hqemp : qid = ""
        · simpa [scoreLoop, hqid, hqemp] using ih scores p hp' pid hpid hemp hr
        · by_cases hqmem : (dictLookup scores qid).isSome
          · simpa [scoreLoop, hqid, hqemp, hqmem] using ih scores p hp' pid hpid hemp hr
          · match hqr : rater q with
            | some s =>
              simpa [scoreLoop, hqid, hqemp, hqmem, hqr] using
                ih (dictInsert qid s scores) p hp' pid hpid hemp hr
            | none =>
              simpa [scoreLoop, hqid, hqemp, hqmem, hqr] using
                ih scores p hp' pid hpid hemp hr

/-- If no uncached paper can be scored, the loop changes nothing. -/
theorem scoreLoop_fixpoint (rater : Paper → Option Int) (papers : List Paper) :
    ∀ scores, (∀ p ∈ papers, ∀ pid, p.id = some pid → pid ≠ "" →
        dictLookup scores pid = none → rater p = none) →
      (scoreLoop rater papers scores).1 = scores := by
  induction papers with
  | nil => intro scores _; simp [scoreLoop]
  | cons p rest ih =>
    intro scores h
    have hrest : ∀ q ∈ rest, ∀ pid, q.id = some pid → pid ≠ "" →
        dictLookup scores pid = none → rater q = none :=
      fun q hq => h q (List.mem_cons_of_mem p hq)
    match hid : p.id with
    | none => simpa [scoreLoop, hid] using ih scores hrest
    | some pid =>
      by_cases hemp : pid = ""
      · simpa [scoreLoop, hid, hemp] using ih scores hrest
      · by_cases hmem : (dictLookup scores pid).isSome
        · simpa [scoreLoop, hid, hemp, hmem] using ih scores hrest
        · have hnone : dictLookup scores pid = none := by
            cases hcase : dictLookup scores pid
            · rfl
            · rw [hcase] at hmem; simp at hmem
          have hrp : rater p = none := h p (List.mem_cons_self p rest) pid hid hemp hnone
          simpa [scoreLoop, hid, hemp, hmem, hrp] using ih scores hrest

/-- Running the scoring loop a second time over the same batch changes
nothing: every id is now cached or known to fail. -/
theorem scoreLoop_idem (rater : Paper → Option Int) (papers : List Paper)
    (scores : List (String × Int)) :
    (scoreLoop rater papers (scoreLoop rater papers scores).1).1 =
      (scoreLoop rater papers scores).1 := by
  apply scoreLoop_fixpoint
  intro p hp pid hpid hemp hnone
  cases hr : rater p with
  | none => rfl
  | some s =>
    exfalso
    have := scoreLoop_progress rater papers scores p hp pid hpid hemp (by simp [hr])
    rw [hnone] at this
    simp at this

/-- Re-selecting from the same ranked list, after committing the first
selection into the seen set, yields nothing — provided the first walk
exhausted the list (returned fewer than the limit). -/
theorem select_unseen_idem (papers : List Paper) (seen : Finset String) (limit : Nat)
    (h : (select_unseen papers seen limit).1.length < limit) :
    select_unseen papers (seen ∪ (select_unseen papers seen limit).2) limit = ([], ∅) := by
  obtain ⟨_, h2⟩ := selectGo_no_break seen limit papers [] ∅ h
  unfold select_unseen
  apply selectGo_all_seen
  intro p hp pid hpid hemp
  by_cases hmem : pid ∈ seen
  · exact Finset.mem_union_left _ hmem
  · refine Finset.mem_union_right _ ?_
    exact h2 p hp pid hpid (by simp [eligible, hpid, hemp, hmem])

/-! ## C3: second-run behaviour of the pipeline -/

/-- C3 counterexample: with two unseen candidates and limit 1, the first
run selects one and the second run — on the identical batch, with the
stores as the first run left them — selects the other, not nothing: the
candidates the limit cut off were never marked seen. -/
theorem c3_counterexample :
    (main_run none ⟨2026, 1, 31⟩ [pA, pB] [] ∅ 1).selected = [pA] ∧
    (main_run none ⟨2026, 1, 31⟩ [pA, pB]
       (main_run none ⟨2026, 1, 31⟩ [pA, pB] [] ∅ 1).scores
       (main_run none ⟨2026, 1, 31⟩ [pA, pB] [] ∅ 1).seen 1).selected = [pB] := by
  constructor <;> decide

/-- C3 amended: the second run on the identical batch, with the stores as
left by the first run, yields an empty selection PROVIDED the first run
selected fewer candidates than the limit (the walk exhausted the batch, so
everything eligible was marked seen); the second run then also leaves both
stores unchanged.  When the first run was cut off by the limit instead,
leftover unseen candidates are selected on the second run. -/
theorem c3_amended (client : Option (Paper → Option Int)) (now : PyDate) (raw : List Paper)
    (scores0 : List (String × Int)) (seen : Finset String) (limit : Nat)
    (h : (main_run client now raw scores0 seen limit).selected.length < limit) :
    (main_run client now raw (main_run client now raw scores0 seen limit).scores
       (main_run client now raw scores0 seen limit).seen limit).selected = [] ∧
    (main_run client now raw (main_run client now raw scores0 seen limit).scores
       (main_run client now raw scores0 seen limit).seen limit).scores =
      (main_run client now raw scores0 seen limit).scores ∧
    (main_run client now raw (main_run client now raw scores0 seen limit).scores
       (main_run client now raw scores0 seen limit).seen limit).seen =
      (main_run client now raw scores0 seen limit).seen := by
  have hscores : (main_run client now raw (main_run client now raw scores0 seen limit).scores
      (main_run client now raw scores0 seen limit).seen limit).scores =
      (main_run client now raw scores0 seen limit).scores := by
    cases client with
    | none => rfl
    | some rater =>
      simp only [main_run]
      exact scoreLoop_idem rater (filter_papers raw now) scores0
  set scores1 := (main_run client now raw scores0 seen limit).scores with hs1
  have hranked : pySortDesc (paper_score scores1) (filter_papers raw now) =
      pySortDesc (paper_score (match client with
        | none => scores0
        | some rater => (scoreLoop rater (filter_papers raw now) scores0).1))
        (filter_papers raw now) := by
    cases client <;> rfl
  have hsel1 : (main_run client now raw scores0 seen limit).selected =
      (select_unseen (pySortDesc (paper_score scores1) (filter_papers raw now)) seen limit).1 := by
    cases client <;> rfl
  have hseen1 : (main_run client now raw scores0 seen limit).seen =
      seen ∪ (select_unseen (pySortDesc (paper_score scores1) (filter_papers raw now)) seen limit).2 := by
    cases client <;> rfl
  have hidem := select_unseen_idem (pySortDesc (paper_score scores1) (filter_papers raw now))
    seen limit (by rw [← hsel1]; exact h)
  refine ⟨?_, hscores, ?_⟩
  · show (select_unseen (pySortDesc (paper_score (main_run client now raw scores1
        (main_run client now raw scores0 seen limit).seen limit).scores) (filter_papers raw now))
        ((main_run client now raw scores0 seen limit).seen) limit).1 = []
    rw [show (main_run client now raw scores1
        (main_run client now raw scores0 seen limit).seen limit).scores = scores1 from hscores]
    rw [hseen1, hidem]
  · show (main_run client now raw scores0 seen limit).seen ∪
        (select_unseen (pySortDesc (paper_score (main_run client now raw scores1
          (main_run client now raw scores0 seen limit).seen limit).scores) (filter_papers raw now))
          ((main_run client now raw scores0 seen limit).seen) limit).2 =
        (main_run client now raw scores0 seen limit).seen
    rw [show (main_run client now raw scores1
        (main_run client now raw scores0 seen limit).seen limit).scores = scores1 from hscores]
    rw [hseen1, hidem]
    simp

/-- C3 amended witness: a single recent candidate with limit 5: the first
run selects it and the second run selects nothing and changes nothing. -/
theorem c3_amended_witness :
    (main_run none ⟨2026, 1, 31⟩ [pA] [] ∅ 5).selected.length < 5 ∧
    (main_run none ⟨2026, 1, 31⟩ [pA] (main_run none ⟨2026, 1, 31⟩ [pA] [] ∅ 5).scores
       (main_run none ⟨2026, 1, 31⟩ [pA] [] ∅ 5).seen 5).selected = [] ∧
    (main_run none ⟨2026, 1, 31⟩ [pA] (main_run none ⟨2026, 1, 31⟩ [pA] [] ∅ 5).scores
       (main_run none ⟨2026, 1, 31⟩ [pA] [] ∅ 5).seen 5).scores =
      (main_run none ⟨2026, 1, 31⟩ [pA] [] ∅ 5).scores ∧
    (main_run none ⟨2026, 1, 31⟩ [pA] (main_run none ⟨2026, 1, 31⟩ [pA] [] ∅ 5).scores
       (main_run none ⟨2026, 1, 31⟩ [pA] [] ∅ 5).seen 5).seen =
      (main_run none ⟨2026, 1, 31⟩ [pA] [] ∅ 5).seen := by
  have h : (main_run none ⟨2026, 1, 31⟩ [pA] [] ∅ 5).selected.length < 5 := by decide
  obtain ⟨h1, h2, h3⟩ := c3_amended none ⟨2026, 1, 31⟩ [pA] [] ∅ 5 h
  exact ⟨h, h1, h2, h3⟩

/-! ## Sorting lemmas -/

theorem pairwise_trivial (l : List Paper) : l.Pairwise (fun _ _ => True) := by
  induction l with
  | nil => exact .nil
  | cons a t ih => exact .cons (fun _ _ => trivial) ih

/-- Inserting `x` (which preceded every element of `l` in the original
input, witnessed by `R x ·`) into a list sorted for `rankRel` keeps it
sorted for `rankRel`. -/
theorem orderedInsert_pairwise {β : Type} [LinearOrder β] (k : Paper → β)
    (R : Paper → Paper → Prop) (x : Paper) :
    ∀ l : List Paper, l.Pairwise (rankRel k R) → (∀ y ∈ l, R x y) →
      (l.orderedInsert (fun a b => k b ≤ k a) x).Pairwise (rankRel k R) := by
  intro l
  induction l with
  | nil =>
    intro _ _
    simp [List.orderedInsert, rankRel]
  | cons b t ih =>
    intro hl hx
    rw [List.orderedInsert]
    by_cases hle : k b ≤ k x
    · rw [if_pos hle]
      constructor
      · intro y hy
        rcases List.mem_cons.mp hy with rfl | hyt
        · rcases lt_or_eq_of_le hle with h | h
          · exact Or.inl h
          · exact Or.inr ⟨h.symm, hx y (List.mem_cons_self y t)⟩
        · have hby := (List.pairwise_cons.mp hl).1 y hyt
          rcases hby with h | ⟨heq, _⟩
          · exact Or.inl (lt_of_lt_of_le h hle)
          · rcases lt_or_eq_of_le (heq ▸ hle : k y ≤ k x) with h | h
            · exact Or.inl h
            · exact Or.inr ⟨h.symm, hx y (List.mem_cons_of_mem b hyt)⟩
      · exact hl
    · rw [if_neg hle]
      have hxb : k x < k b := not_le.mp hle
      constructor
      · intro y hy
        rcases (List.mem_orderedInsert _).mp hy with rfl | hyt
        · exact Or.inl hxb
        · exact (List.pairwise_cons.mp hl).1 y hyt
      · exact ih (List.pairwise_cons.mp hl).2 (fun y hy => hx y (List.mem_cons_of_mem b hy))

/-- A stable descending sort by key `k` of an input pairwise related by
`R` is pairwise related by `rankRel k R`: larger keys first, key ties in
input order. -/
theorem insertionSort_pairwise {β : Type} [LinearOrder β] (k : Paper → β)
    (R : Paper → Paper → Prop) :
    ∀ l : List Paper, l.Pairwise R →
      (List.insertionSort (fun a b => k b ≤ k a) l).Pairwise (rankRel k R) := by
  intro l
  induction l with
  | nil =>
    intro _
    simp [List.insertionSort]
  | cons x t ih =>
    intro hl
    rw [List.insertionSort]
    apply orderedInsert_pairwise
    · exact ih (List.pairwise_cons.mp hl).2
    · intro y hy
      exact (List.pairwise_cons.mp hl).1 y ((List.perm_insertionSort _ t).subset hy)

/-! ## C5: ranking order -/

/-- C5 counterexample: two candidates with equal effective score (both
unscored) and equal published date keep their batch order — identity is
never consulted, so the lexicographically smaller identity "a" comes
second, not first. -/
theorem c5_counterexample :
    pySortDesc (paper_score []) (filter_papers [pB20, pA] ⟨2026, 1, 31⟩) = [pB20, pA] ∧
    paper_score [] pB20 = paper_score [] pA ∧
    pB20.published = pA.published ∧
    pA.id = some "a" ∧ pB20.id = some "b" ∧ "a".data < "b".data :=
  ⟨by decide, rfl, rfl, rfl, rfl, by decide⟩

/-- C5 amended: in the ranked output the candidate with greater effective
score (cached score, else 0) comes first, and candidates with equal
effective score are ordered by descending published date; remaining ties
(equal score and date) keep the order of the recency-filtered sequence —
identity is NOT used as a tie-break, so the order, while deterministic,
is not the claimed identity-ascending one. -/
theorem c5_amended (scores : List (String × Int)) (raw : List Paper) (now : PyDate) :
    (pySortDesc (paper_score scores) (filter_papers raw now)).Pairwise
      (fun a b => paper_score scores b < paper_score scores a ∨
        (paper_score scores a = paper_score scores b ∧ b.published.data ≤ a.published.data)) := by
  have h0 : (filter_papers raw now).Pairwise
      (fun a b : Paper => b.published.data ≤ a.published.data) := by
    have h2 := insertionSort_pairwise (fun p : Paper => p.published.data) (fun _ _ => True)
      (raw.filter (recent now)) (pairwise_trivial _)
    refine h2.imp ?_
    intro a b hab
    rcases hab with h | ⟨h, _⟩
    · exact le_of_lt h
    · exact le_of_eq h.symm
  exact insertionSort_pairwise (paper_score scores)
    (fun a b => b.published.data ≤ a.published.data) (filter_papers raw now) h0

/-! ## C6: recency filter -/

/-- C6 counterexample: the filter has no upper bound: a record published
9999-12-31, far after the reference instant 2026-01-31 (whose 30-day
window starts 2026-01-01), passes the filter. -/
theorem c6_counterexample :
    filter_papers [pFuture] ⟨2026, 1, 31⟩ = [pFuture] ∧
    parseDate pFuture.published = some ⟨9999, 12, 31⟩ ∧
    dateLt ⟨2026, 1, 31⟩ ⟨9999, 12, 31⟩ = true ∧
    dateSubDays ⟨2026, 1, 31⟩ 30 = ⟨2026, 1, 1⟩ :=
  ⟨by decide, by decide, by decide, by decide⟩

/-- C6 amended: the filter's output is a permutation — re-sorted by
published date descending — of exactly those records whose published date
parses and is not before `reference - 30 days`; records with unparsable
dates are dropped without failing the run (the parse failure is caught),
but records dated after the reference instant are NOT excluded. -/
theorem c6_amended (papers : List Paper) (now : PyDate) :
    (filter_papers papers now).Perm (papers.filter (recent now)) ∧
    (filter_papers papers now).Pairwise (fun a b => b.published.data ≤ a.published.data) ∧
    (∀ p ∈ filter_papers papers now, ∃ d, parseDate p.published = some d ∧
      dateLt d (dateSubDays now 30) = false) := by
  refine ⟨List.perm_insertionSort _ _, ?_, ?_⟩
  · have h2 := insertionSort_pairwise (fun p : Paper => p.published.data) (fun _ _ => True)
      (papers.filter (recent now)) (pairwise_trivial _)
    refine h2.imp ?_
    intro a b hab
    rcases hab with h | ⟨h, _⟩
    · exact le_of_lt h
    · exact le_of_eq h.symm
  · intro p hp
    have hmem : p ∈ papers.filter (recent now) :=
      (List.perm_insertionSort _ _).subset hp
    have hrec : recent now p = true := (List.mem_filter.mp hmem).2
    unfold recent at hrec
    cases hpd : parseDate p.published with
    | none => rw [hpd] at hrec; cases hrec
    | some d =>
      refine ⟨d, rfl, ?_⟩
      rw [hpd] at hrec
      simpa using hrec

/-- C6 amended witness: a concrete recent paper passes and its parsed date
is inside the window. -/
theorem c6_amended_witness :
    (filter_papers [pA] ⟨2026, 1, 31⟩).Perm ([pA].filter (recent ⟨2026, 1, 31⟩)) ∧
    ∃ d, parseDate pA.published = some d ∧
      dateLt d (dateSubDays ⟨2026, 1, 31⟩ 30) = false := by
  obtain ⟨h1, _, h3⟩ := c6_amended [pA] ⟨2026, 1, 31⟩
  exact ⟨h1, h3 pA (by decide)⟩

/-! ## Whitespace-normalization lemmas -/

theorem collapseWS_space_char (l : List Char) :
    ∀ p0, ∀ c ∈ collapseWS p0 l, isSpace c = true → c = ' ' := by
  induction l with
  | nil => intro p0 c hc; simp [collapseWS] at hc
  | cons a rest ih =>
    intro p0 c hc hsp
    by_cases ha : isSpace a = true
    · cases p0 with
      | true =>
        simp only [collapseWS, ha, if_true] at hc
        exact ih true c hc hsp
      | false =>
        simp only [collapseWS, ha, if_true, if_false] at hc
        rcases List.mem_cons.mp hc with rfl | hc'
        · rfl
        · exact ih true c hc' hsp
    · simp only [collapseWS, ha, if_false, Bool.false_eq_true] at hc
      rcases List.mem_cons.mp hc with rfl | hc'
      · rw [hsp] at ha; cases ha rfl
      · exact ih false c hc' hsp

theorem collapseWS_true_head (l : List Char) :
    ∀ c, (collapseWS true l).head? = some c → isSpace c = false := by
  induction l with
  | nil => intro c h; simp [collapseWS] at h
  | cons a rest ih =>
    intro c h
    by_cases ha : isSpace a = true
    · simp only [collapseWS, ha, if_true] at h
      exact ih c h
    · simp only [collapseWS, ha, if_false, Bool.false_eq_true] at h
      rw [List.head?_cons] at h
      cases h
      exact Bool.eq_false_iff.mpr ha

theorem collapseWS_chain' (l : List Char) :
    ∀ p0, (collapseWS p0 l).Chain'
      (fun a b => ¬(isSpace a = true ∧ isSpace b = true)) := by
  induction l with
  | nil => intro p0; simp [collapseWS]
  | cons a rest ih =>
    intro p0
    by_cases ha : isSpace a = true
    · cases p0 with
      | true =>
        simpa only [collapseWS, ha, if_true] using ih true
      | false =>
        simp only [collapseWS, ha, Bool.false_eq_true, if_true, if_false]
        rw [List.chain'_cons']
        refine ⟨?_, ih true⟩
        intro y hy
        have hns := collapseWS_true_head rest y hy
        rintro ⟨_, h2⟩
        rw [hns] at h2
        cases h2
    · simp only [collapseWS, ha, if_false, Bool.false_eq_true]
      rw [List.chain'_cons']
      refine ⟨?_, ih false⟩
      intro y _
      rintro ⟨h1, _⟩
      exact ha h1

theorem head?_dropWhile (p : Char → Bool) (l : List Char) :
    ∀ c, (l.dropWhile p).head? = some c → p c = false := by
  induction l with
  | nil => intro c h; simp at h
  | cons a rest ih =>
    intro c h
    by_cases ha : p a = true
    · rw [List.dropWhile_cons_of_pos ha] at h
      exact ih c h
    · rw [List.dropWhile_cons_of_neg ha] at h
      rw [List.head?_cons] at h
      cases h
      exact Bool.eq_false_iff.mpr ha

theorem stripWS_subset (l : List Char) : ∀ c ∈ stripWS l, c ∈ l := by
  intro c hc
  unfold stripWS at hc
  rw [List.mem_reverse] at hc
  have h1 := (List.dropWhile_suffix isSpace).subset hc
  rw [List.mem_reverse] at h1
  exact (List.dropWhile_suffix isSpace).subset h1

theorem stripWS_chain' (l : List Char)
    (h : l.Chain' (fun a b => ¬(isSpace a = true ∧ isSpace b = true))) :
    (stripWS l).Chain' (fun a b => ¬(isSpace a = true ∧ isSpace b = true)) := by
  unfold stripWS
  have hsym : ∀ x : List Char,
      x.Chain' (fun a b => ¬(isSpace a = true ∧ isSpace b = true)) →
      x.reverse.Chain' (fun a b => ¬(isSpace a = true ∧ isSpace b = true)) := by
    intro x hx
    rw [List.chain'_reverse]
    exact hx.imp (fun a b hab h2 => hab ⟨h2.2, h2.1⟩)
  have h1 := h.suffix (List.dropWhile_suffix isSpace)
  have h2 := hsym _ h1
  have h3 := h2.suffix (List.dropWhile_suffix isSpace)
  exact hsym _ h3

theorem stripWS_head (l : List Char) :
    ∀ c, (stripWS l).head? = some c → isSpace c = false := by
  intro c hc
  unfold stripWS at hc
  rw [List.head?_reverse] at hc
  have hbne : (l.dropWhile isSpace).reverse.dropWhile isSpace ≠ [] := by
    intro h0
    rw [h0] at hc
    cases hc
  obtain ⟨t, ht⟩ := List.dropWhile_suffix (l := (l.dropWhile isSpace).reverse) isSpace
  have h2 : (t ++ (l.dropWhile isSpace).reverse.dropWhile isSpace).getLast? =
      ((l.dropWhile isSpace).reverse.dropWhile isSpace).getLast? :=
    List.getLast?_append_of_ne_nil t hbne
  have h3 : (l.dropWhile isSpace).reverse.getLast? = some c := by
    rw [← ht, h2, hc]
  rw [List.getLast?_reverse] at h3
  exact head?_dropWhile isSpace l c h3

theorem stripWS_getLast (l : List Char) :
    ∀ c, (stripWS l).getLast? = some c → isSpace c = false := by
  intro c hc
  unfold stripWS at hc
  rw [List.getLast?_reverse] at hc
  exact head?_dropWhile isSpace _ c hc

theorem isCleaned_cleanTextS (s : String) : isCleaned (cleanTextS s) := by
  refine ⟨?_, ?_, ?_, ?_⟩
  · intro c hc hsp
    exact collapseWS_space_char s.data false c (stripWS_subset _ c hc) hsp
  · exact stripWS_chain' _ (collapseWS_chain' s.data false)
  · exact stripWS_head _
  · exact stripWS_getLast _

theorem isCleaned_empty : isCleaned "" := by
  refine ⟨?_, ?_, ?_, ?_⟩
  · intro c hc; cases hc
  · exact List.chain'_nil
  · intro c h; cases h
  · intro c h; cases h

theorem isCleaned_clean_text (t : Option String) : isCleaned (clean_text t) := by
  match t with
  | none => exact isCleaned_empty
  | some s =>
    show isCleaned (if s = "" then "" else cleanTextS s)
    by_cases hs : s = ""
    · rw [if_pos hs]; exact isCleaned_empty
    · rw [if_neg hs]; exact isCleaned_cleanTextS s

/-! ## Parse-inversion lemmas -/

/-- Every paper of a successful parse comes from some entry. -/
theorem parse_ok_mem (entries : List Entry) :
    ∀ papers, parse_arxiv_response entries = .ok papers →
      ∀ p ∈ papers, ∃ e ∈ entries, parseEntry e = .ok p := by
  induction entries with
  | nil =>
    intro papers h p hp
    simp only [parse_arxiv_response] at h
    cases h
    cases hp
  | cons e rest ih =>
    intro papers h p hp
    rw [parse_arxiv_response] at h
    cases he : parseEntry e with
    | error err => rw [he] at h; cases h
    | ok p0 =>
      rw [he] at h
      cases hr : parse_arxiv_response rest with
      | error err =>
        rw [hr] at h
        cases h
      | ok ps =>
        rw [hr] at h
        cases h
        rcases List.mem_cons.mp hp with rfl | hp'
        · exact ⟨e, List.mem_cons_self e rest, he⟩
        · obtain ⟨e', he1, he2⟩ := ih ps hr p hp'
          exact ⟨e', List.mem_cons_of_mem e he1, he2⟩

/-- A successfully parsed paper carries the cleaned title and abstract of
its entry. -/
theorem parseEntry_title_abstract (e : Entry) (p : Paper) (h : parseEntry e = .ok p) :
    (∃ t, xtext e.titleText = .ok t ∧ p.title = clean_text t) ∧
    (∃ t, xtext e.summaryText = .ok t ∧ p.abstract = clean_text t) := by
  unfold parseEntry at h
  cases h1 : idValue e.idText with
  | error err => rw [h1] at h; cases h
  | ok pid =>
    rw [h1] at h
    cases h2 : xtext e.titleText with
    | error err => rw [h2] at h; cases h
    | ok tt =>
      rw [h2] at h
      cases h3 : xtext e.summaryText with
      | error err => rw [h3] at h; cases h
      | ok ts =>
        rw [h3] at h
        cases h4 : authorList e.authorNames with
        | error err => rw [h4] at h; cases h
        | ok aus =>
          rw [h4] at h
          cases h5 : first10 e.publishedText with
          | error err => rw [h5] at h; cases h
          | ok pub =>
            rw [h5] at h
            cases h6 : first10 e.updatedText with
            | error err => rw [h6] at h; cases h
            | ok upd =>
              rw [h6] at h
              cases h
              exact ⟨⟨tt, rfl, rfl⟩, ⟨ts, rfl, rfl⟩⟩

/-- An entry with a missing title element fails the whole parse, wherever
it sits in the batch. -/
theorem parse_absent_title_fails (e : Entry) (habs : e.titleText = .absent) :
    ∀ es₁ es₂, ∃ err, parse_arxiv_response (es₁ ++ e :: es₂) = .error err := by
  have hent : ∃ err, parseEntry e = .error err := by
    unfold parseEntry
    cases h1 : idValue e.idText with
    | error err => exact ⟨err, rfl⟩
    | ok pid =>
      refine ⟨.attributeError, ?_⟩
      rw [habs]
      rfl
  intro es₁
  induction es₁ with
  | nil =>
    intro es₂
    obtain ⟨err, herr⟩ := hent
    refine ⟨err, ?_⟩
    rw [List.nil_append, parse_arxiv_response, herr]
    rfl
  | cons e1 rest ih =>
    intro es₂
    rw [List.cons_append, parse_arxiv_response]
    cases he1 : parseEntry e1 with
    | error err => exact ⟨err, rfl⟩
    | ok p1 =>
      obtain ⟨err, herr⟩ := ih es₂
      refine ⟨err, ?_⟩
      rw [herr]
      rfl

/-! ## C7: record normalizer -/

/-- C7 counterexample: a feed entry whose title element contains only
whitespace parses successfully into a record whose title is the empty
string — no `MalformedRecord` failure occurs and an empty required field
IS emitted. -/
theorem c7_counterexample :
    (parse_arxiv_response [eWs]).toOption.map (List.map Paper.title) = some [""] := by
  decide

/-- C7 amended: the normalizer validates nothing: every record of a
successful parse carries a whitespace-normalized title and abstract, which
may be empty (empty-after-normalization fields are emitted, not rejected);
a missing required element aborts the whole parse with an unhandled
exception (there is no per-record `MalformedRecord` skip). -/
theorem c7_amended :
    (∀ entries papers, parse_arxiv_response entries = .ok papers →
      ∀ p ∈ papers, isCleaned p.title ∧ isCleaned p.abstract) ∧
    (∀ e : Entry, e.titleText = .absent →
      ∀ es₁ es₂, ∃ err, parse_arxiv_response (es₁ ++ e :: es₂) = .error err) := by
  constructor
  · intro entries papers h p hp
    obtain ⟨e, _, he⟩ := parse_ok_mem entries papers h p hp
    obtain ⟨⟨t1, _, ht1⟩, ⟨t2, _, ht2⟩⟩ := parseEntry_title_abstract e p he
    exact ⟨ht1 ▸ isCleaned_clean_text t1, ht2 ▸ isCleaned_clean_text t2⟩
  · exact fun e habs => parse_absent_title_fails e habs

/-- C7 amended witness: the whitespace-title entry parses to a paper with
cleaned (here: empty) fields, and an entry missing its title element makes
the parse fail. -/
theorem c7_amended_witness :
    (isCleaned pWs.title ∧ isCleaned pWs.abstract) ∧
    (∃ err, parse_arxiv_response ([] ++ eAbsent :: []) = .error err) :=
  ⟨c7_amended.1 [eWs] [pWs] rfl pWs (List.mem_singleton.mpr rfl),
   c7_amended.2 eAbsent rfl [] []⟩

end ArxivDigest
